import Mathlib

/-!
Verification of the log-event extraction and statistical aggregation pipeline
of `kafka-segment-roll-ms.py`.

The Python source is embedded shallowly:
* machine integers are `Nat` (all quantities involved are non-negative);
* Python float expressions such as `int(n * 0.95)` and `int(count / mx * 30)`
  are embedded with exact rational/natural arithmetic (`n * 95 / 100`,
  `count * 30 / mx` with natural floor division), which agrees with the
  float evaluation throughout the ranges these programs operate on;
* Python's `sorted(..., key=..., reverse=True)` (a stable sort) is embedded
  as a stable insertion sort;
* fallible code returns `Option` / `Except`: a `none` / `Except.error` models
  a raised `ZeroDivisionError` / `ValueError`.
-/

namespace KafkaRoll

/-- One parsed log entry, as built by `parse_log` (the derived display strings
`date`/`time` are presentation-only reformattings of the timestamp and are
not modelled separately). -/
structure Entry where
  year : Nat
  month : Nat
  day : Nat
  hour : Nat
  minute : Nat
  second : Nat
  microsecond : Nat
  partition : String
  directory : String
  offset : Nat
  duration_ms : Nat
deriving Repr, DecidableEq

/-- Stable insert step of a descending sort by `key`: the element being
inserted comes from earlier in the original list, so it is placed before any
already placed element of equal key (Python `sorted(key=..., reverse=True)`
keeps equal elements in original order). -/
def insertDescBy (key : α → Nat) (x : α) : List α → List α
  | [] => [x]
  | y :: ys => if key y ≤ key x then x :: y :: ys else y :: insertDescBy key x ys

/-- Stable descending insertion sort by `key`: embedding of Python
`sorted(l, key=key, reverse=True)`. -/
def sortDescBy (key : α → Nat) : List α → List α
  | [] => []
  | x :: xs => insertDescBy key x (sortDescBy key xs)

/-- Stable insert step of an ascending sort by `key`. -/
def insertAscBy (key : α → Nat) (x : α) : List α → List α
  | [] => [x]
  | y :: ys => if key x ≤ key y then x :: y :: ys else y :: insertAscBy key x ys

/-- Stable ascending insertion sort by `key`: embedding of Python
`sorted(l, key=key)`. -/
def sortAscBy (key : α → Nat) : List α → List α
  | [] => []
  | x :: xs => insertAscBy key x (sortAscBy key xs)

/-- Python `sorted(l)` on a list of naturals. -/
def sortAsc (l : List Nat) : List Nat := sortAscBy (fun n => n) l

/-- `sorted_entries = sorted(entries, key=lambda e: e["duration_ms"], reverse=True)`
(source line 138). -/
def sorted_entries (entries : List Entry) : List Entry :=
  sortDescBy (fun e => e.duration_ms) entries

theorem insertDescBy_perm (key : α → Nat) (x : α) (l : List α) :
    List.Perm (insertDescBy key x l) (x :: l) := by
  induction l with
  | nil => simp [insertDescBy]
  | cons y ys ih =>
    by_cases h : key y ≤ key x
    · simp [insertDescBy, h]
    · simp only [insertDescBy, if_neg h]
      exact (ih.cons y).trans (List.Perm.swap x y ys)

theorem sortDescBy_perm (key : α → Nat) (l : List α) : List.Perm (sortDescBy key l) l := by
  induction l with
  | nil => simp [sortDescBy]
  | cons x xs ih =>
    exact (insertDescBy_perm key x (sortDescBy key xs)).trans (ih.cons x)

theorem insertDescBy_pairwise (key : α → Nat) (x : α) (l : List α)
    (h : l.Pairwise (fun a b => key b ≤ key a)) :
    (insertDescBy key x l).Pairwise (fun a b => key b ≤ key a) := by
  induction l with
  | nil => simp [insertDescBy]
  | cons y ys ih =>
    rcases List.pairwise_cons.mp h with ⟨hy, hys⟩
    by_cases hxy : key y ≤ key x
    · simp only [insertDescBy, if_pos hxy]
      refine List.pairwise_cons.mpr ⟨?_, h⟩
      intro z hz
      rcases List.mem_cons.mp hz with rfl | hz
      · exact hxy
      · exact le_trans (hy z hz) hxy
    · simp only [insertDescBy, if_neg hxy]
      refine List.pairwise_cons.mpr ⟨?_, ih hys⟩
      intro z hz
      have hz' := (insertDescBy_perm key x ys).mem_iff.mp hz
      rcases List.mem_cons.mp hz' with rfl | hz'
      · exact le_of_lt (Nat.lt_of_not_le hxy)
      · exact hy z hz'

theorem sortDescBy_pairwise (key : α → Nat) (l : List α) :
    (sortDescBy key l).Pairwise (fun a b => key b ≤ key a) := by
  induction l with
  | nil => simp [sortDescBy]
  | cons x xs ih => exact insertDescBy_pairwise key x _ ih

theorem insertDescBy_filter_key (key : α → Nat) (x : α) (l : List α) (v : Nat) :
    (insertDescBy key x l).filter (fun a => key a == v) =
      (x :: l).filter (fun a => key a == v) := by
  induction l with
  | nil => rfl
  | cons y ys ih =>
    by_cases hxy : key y ≤ key x
    · simp [insertDescBy, hxy]
    · have hlt : key x < key y := Nat.lt_of_not_le hxy
      by_cases hx : key x = v
      · have hy : ¬ key y = v := by omega
        subst hx
        simp [insertDescBy, hxy, List.filter_cons, ih, hy]
      · simp [insertDescBy, hxy, List.filter_cons, ih, hx]

theorem sortDescBy_filter_key (key : α → Nat) (l : List α) (v : Nat) :
    (sortDescBy key l).filter (fun a => key a == v) =
      l.filter (fun a => key a == v) := by
  induction l with
  | nil => rfl
  | cons x xs ih =>
    have h := insertDescBy_filter_key key x (sortDescBy key xs) v
    rw [sortDescBy, h, List.filter_cons, List.filter_cons, ih]

theorem insertAscBy_perm (key : α → Nat) (x : α) (l : List α) :
    List.Perm (insertAscBy key x l) (x :: l) := by
  induction l with
  | nil => simp [insertAscBy]
  | cons y ys ih =>
    by_cases h : key x ≤ key y
    · simp [insertAscBy, h]
    · simp only [insertAscBy, if_neg h]
      exact (ih.cons y).trans (List.Perm.swap x y ys)

theorem sortAscBy_perm (key : α → Nat) (l : List α) : List.Perm (sortAscBy key l) l := by
  induction l with
  | nil => simp [sortAscBy]
  | cons x xs ih =>
    exact (insertAscBy_perm key x (sortAscBy key xs)).trans (ih.cons x)

theorem insertAscBy_pairwise (key : α → Nat) (x : α) (l : List α)
    (h : l.Pairwise (fun a b => key a ≤ key b)) :
    (insertAscBy key x l).Pairwise (fun a b => key a ≤ key b) := by
  induction l with
  | nil => simp [insertAscBy]
  | cons y ys ih =>
    rcases List.pairwise_cons.mp h with ⟨hy, hys⟩
    by_cases hxy : key x ≤ key y
    · simp only [insertAscBy, if_pos hxy]
      refine List.pairwise_cons.mpr ⟨?_, h⟩
      intro z hz
      rcases List.mem_cons.mp hz with rfl | hz
      · exact hxy
      · exact le_trans hxy (hy z hz)
    · simp only [insertAscBy, if_neg hxy]
      refine List.pairwise_cons.mpr ⟨?_, ih hys⟩
      intro z hz
      have hz' := (insertAscBy_perm key x ys).mem_iff.mp hz
      rcases List.mem_cons.mp hz' with rfl | hz'
      · exact le_of_lt (Nat.lt_of_not_le hxy)
      · exact hy z hz'

theorem sortAscBy_pairwise (key : α → Nat) (l : List α) :
    (sortAscBy key l).Pairwise (fun a b => key a ≤ key b) := by
  induction l with
  | nil => simp [sortAscBy]
  | cons x xs ih => exact insertAscBy_pairwise key x _ ih

theorem sortAsc_perm (l : List Nat) : List.Perm (sortAsc l) l := sortAscBy_perm _ l

theorem sortAsc_pairwise (l : List Nat) : (sortAsc l).Pairwise (fun a b => a ≤ b) :=
  sortAscBy_pairwise (fun n => n) l

/-- Concrete sample entry used by witness theorems. -/
def sampleEntry (p : String) (off dur : Nat) : Entry :=
  { year := 2024, month := 1, day := 1, hour := 0, minute := 0, second := 0,
    microsecond := 0, partition := p, directory := "/d", offset := off,
    duration_ms := dur }

/-- C5: `allEntriesRankedByDuration` (`sorted_entries`, source line 138) is a
permutation of the parsed entries, is sorted non-increasing by `duration_ms`,
keeps equal-duration entries in original parse order (stability, stated as
filter invariance for every duration value), and its first element — the
single slowest entry used by the dashboard (source line 262) — has the
maximum duration among all entries. -/
theorem ranking_desc_stable (entries : List Entry) :
    List.Perm (sorted_entries entries) entries ∧
    (sorted_entries entries).Pairwise
      (fun a b => b.duration_ms ≤ a.duration_ms) ∧
    (∀ v : Nat, (sorted_entries entries).filter (fun e => e.duration_ms == v) =
        entries.filter (fun e => e.duration_ms == v)) ∧
    (∀ h t, sorted_entries entries = h :: t →
        ∀ e ∈ entries, e.duration_ms ≤ h.duration_ms) := by
  refine ⟨sortDescBy_perm _ entries, sortDescBy_pairwise _ entries,
    fun v => sortDescBy_filter_key _ entries v, ?_⟩
  intro h t hht e he
  simp only [sorted_entries] at hht
  have hmem : e ∈ h :: t := by
    rw [← hht]
    exact (sortDescBy_perm (fun e => e.duration_ms) entries).symm.subset he
  rcases List.mem_cons.mp hmem with rfl | hmem
  · exact le_refl _
  · have hp := sortDescBy_pairwise (fun e => e.duration_ms) entries
    rw [hht] at hp
    exact (List.pairwise_cons.mp hp).1 e hmem

/-- Witness for `ranking_desc_stable`: evaluated on a concrete two-entry list,
the ranking is `[b/9, a/5]` and its head bounds the duration of every entry. -/
theorem ranking_desc_stable_witness :
    (sampleEntry "a" 0 5).duration_ms ≤ (sampleEntry "b" 1 9).duration_ms :=
  (ranking_desc_stable [sampleEntry "a" 0 5, sampleEntry "b" 1 9]).2.2.2
    (sampleEntry "b" 1 9) [sampleEntry "a" 0 5] (by decide)
    (sampleEntry "a" 0 5) (by decide)

/-- Python `max(l)` on a nonempty list of naturals; on naturals a `0` initial
accumulator is neutral, so `foldl max 0` agrees with Python `max` at every
(nonempty) call site. -/
def pyMax (l : List Nat) : Nat := l.foldl max 0

/-- `all_d = sorted(e["duration_ms"] for e in entries)` (source line 259). -/
def all_d (entries : List Entry) : List Nat :=
  sortAsc (entries.map (fun e => e.duration_ms))

/-- Raw p95 index `int(len(all_d) * 0.95)` (source line 260), exact
arithmetic: `⌊n * 0.95⌋ = n * 95 / 100`. -/
def rawP95Idx (n : Nat) : Nat := n * 95 / 100

/-- Raw unclamped p99 index `int(len(all_d) * 0.99)` (source line 261). -/
def rawP99Idx (n : Nat) : Nat := n * 99 / 100

/-- `p95 = all_d[int(len(all_d) * 0.95)]` (source line 260). `getD … 0` models
the list lookup; the index is proved in range (`p95_index_in_range`). -/
def p95 (d : List Nat) : Nat := d.getD (rawP95Idx d.length) 0

/-- `p99 = all_d[min(int(len(all_d) * 0.99), len(all_d) - 1)]` (source
line 261). -/
def p99 (d : List Nat) : Nat := d.getD (min (rawP99Idx d.length) (d.length - 1)) 0

/-- `median`: element at index `cnt // 2` of the ascending-sorted durations
(source lines 212 and 273 both use this convention). -/
def median (d : List Nat) : Nat := (sortAsc d).getD (d.length / 2) 0

/-- `style_status` (source lines 69-82): the three-tier severity label written
for a duration. -/
def classify (duration_ms : Nat) : String :=
  if duration_ms ≥ 1000 then "SLOW"
  else if duration_ms ≥ 100 then "MODERATE"
  else "OK"

/-- Python `round` (banker's rounding, half to even) on an exact rational. -/
def roundHalfEven (q : ℚ) : ℤ :=
  let f := ⌊q⌋
  if q - f < 1/2 then f
  else if 1/2 < q - f then f + 1
  else if 2 ∣ f then f else f + 1

/-- `round(sum(d) / cnt, 1)` (source lines 210 and 272): the average kept to
one fractional digit, under exact rational arithmetic. -/
def avg1 (d : List Nat) : ℚ :=
  (roundHalfEven ((d.sum : ℚ) / (d.length : ℚ) * 10) : ℚ) / 10

theorem le_foldl_max (l : List Nat) (a : Nat) : a ≤ l.foldl max a := by
  induction l generalizing a with
  | nil => exact le_refl a
  | cons x xs ih => exact le_trans (Nat.le_max_left a x) (ih (max a x))

theorem mem_le_foldl_max (l : List Nat) : ∀ (a x : Nat), x ∈ l → x ≤ l.foldl max a := by
  induction l with
  | nil => intro a x hx; cases hx
  | cons y ys ih =>
    intro a x hx
    rcases List.mem_cons.mp hx with rfl | hx
    · exact le_trans (Nat.le_max_right a x) (le_foldl_max ys (max a x))
    · exact ih (max a y) x hx

theorem mem_le_pyMax (l : List Nat) (x : Nat) (hx : x ∈ l) : x ≤ pyMax l :=
  mem_le_foldl_max l 0 x hx

theorem sorted_getD_mono (l : List Nat) (hl : l.Pairwise (fun a b => a ≤ b))
    (i j : Nat) (hij : i ≤ j) (hj : j < l.length) : l.getD i 0 ≤ l.getD j 0 := by
  have hi : i < l.length := lt_of_le_of_lt hij hj
  rw [List.getD_eq_getElem l 0 hi, List.getD_eq_getElem l 0 hj]
  rcases Nat.lt_or_ge i j with h | h
  · exact (List.pairwise_iff_getElem.mp hl) i j hi hj h
  · have hij' : i = j := le_antisymm hij h
    subst hij'
    exact le_refl _

theorem getD_mem (l : List Nat) (i : Nat) (hi : i < l.length) : l.getD i 0 ∈ l := by
  rw [List.getD_eq_getElem l 0 hi]
  exact List.getElem_mem hi

theorem all_d_length (entries : List Entry) : (all_d entries).length = entries.length := by
  rw [all_d, (sortAsc_perm _).length_eq, List.length_map]

theorem rawP95Idx_lt (n : Nat) (h : 1 ≤ n) : rawP95Idx n < n := by
  rw [rawP95Idx]
  omega

theorem rawP99Idx_lt (n : Nat) (h : 1 ≤ n) : rawP99Idx n < n := by
  rw [rawP99Idx]
  omega

/-- C3: on the ascending-sorted global duration list of a non-empty entry set,
`p95 <= p99 <= max` (the dashboard's Maximum is `max(all_d)`, source line 271),
and for a single entry the p99 clamp keeps the index at `0`, giving
`p95 == p99 == max`. -/
theorem percentile_order (entries : List Entry) (hne : entries ≠ []) :
    p95 (all_d entries) ≤ p99 (all_d entries) ∧
    p99 (all_d entries) ≤ pyMax (all_d entries) ∧
    (entries.length = 1 →
      p95 (all_d entries) = pyMax (all_d entries) ∧
      p99 (all_d entries) = pyMax (all_d entries)) := by
  set d := all_d entries with hd
  have hlen : d.length = entries.length := all_d_length entries
  have hn : 1 ≤ d.length := by
    rw [hlen]
    exact List.length_pos.mpr hne
  have hsorted : d.Pairwise (fun a b => a ≤ b) := sortAsc_pairwise _
  have hi99 : min (rawP99Idx d.length) (d.length - 1) < d.length := by
    have := rawP99Idx_lt d.length hn
    omega
  have hle : rawP95Idx d.length ≤ min (rawP99Idx d.length) (d.length - 1) := by
    have h95 := rawP95Idx_lt d.length hn
    rw [rawP95Idx, rawP99Idx]
    rw [rawP95Idx] at h95
    have : d.length * 95 / 100 ≤ d.length * 99 / 100 :=
      Nat.div_le_div_right (Nat.mul_le_mul_left _ (by omega))
    omega
  refine ⟨sorted_getD_mono d hsorted _ _ hle hi99, ?_, ?_⟩
  · exact mem_le_pyMax d _ (getD_mem d _ hi99)
  · intro h1
    have hlen1 : d.length = 1 := by rw [hlen, h1]
    rcases List.length_eq_one.mp hlen1 with ⟨a, ha⟩
    rw [p95, p99, ha]
    simp [hlen1, rawP95Idx, rawP99Idx, List.getD, pyMax, ha]

/-- Witness for `percentile_order` at a concrete single-entry list. -/
theorem percentile_order_witness :
    p95 (all_d [sampleEntry "a" 0 7]) = pyMax (all_d [sampleEntry "a" 0 7]) ∧
    p99 (all_d [sampleEntry "a" 0 7]) = pyMax (all_d [sampleEntry "a" 0 7]) :=
  (percentile_order [sampleEntry "a" 0 7] (by decide)).2.2 (by decide)

/-- C9 counterexample (negation of the claim): there is no dataset size
`n ≥ 1` at which the raw unclamped p99 index `int(n * 0.99)` equals `n`; the
raw index is always strictly below `n`, so the clamp is never what keeps the
lookup in range. -/
theorem raw_p99_index_never_n : ¬ ∃ n : Nat, 1 ≤ n ∧ rawP99Idx n = n := by
  rintro ⟨n, h1, h2⟩
  have := rawP99Idx_lt n h1
  omega

/-- C9 amended: for every `n ≥ 1` the raw p99 index `int(n * 0.99)` is at most
`n - 1`, so the `min(…, n-1)` clamp never changes the index — it is purely
defensive, not required for in-range access. -/
theorem p99_clamp_defensive (n : Nat) (h : 1 ≤ n) :
    rawP99Idx n ≤ n - 1 ∧ min (rawP99Idx n) (n - 1) = rawP99Idx n := by
  have := rawP99Idx_lt n h
  omega

/-- Witness for `p99_clamp_defensive` at `n = 100`. -/
theorem p99_clamp_defensive_witness :
    rawP99Idx 100 ≤ 99 ∧ min (rawP99Idx 100) (100 - 1) = rawP99Idx 100 :=
  p99_clamp_defensive 100 (by decide)

/-- C10: for every non-empty duration list the unclamped p95 index
`int(n * 0.95)` is at most `n - 1`, hence strictly below the length, so the
unguarded `all_d[int(len(all_d) * 0.95)]` lookup (source line 260) is always
in range. -/
theorem p95_index_in_range (d : List Nat) (h : d ≠ []) :
    rawP95Idx d.length < d.length ∧ rawP95Idx d.length ≤ d.length - 1 := by
  have hn : 1 ≤ d.length := List.length_pos.mpr h
  have := rawP95Idx_lt d.length hn
  omega

/-- Witness for `p95_index_in_range` at a concrete singleton list. -/
theorem p95_index_in_range_witness :
    rawP95Idx ([42] : List Nat).length < ([42] : List Nat).length ∧
    rawP95Idx ([42] : List Nat).length ≤ ([42] : List Nat).length - 1 :=
  p95_index_in_range [42] (by decide)

/-- C7: the median convention is upper-median (`sorted[cnt // 2]`), for the
spec's concrete single-group scenario: durations `[5, 1500, 50, 1200, 900]`
rank descending as `[1500, 1200, 900, 50, 5]`, classify as
`[SLOW, SLOW, MODERATE, OK, OK]`, sort ascending as `[5, 50, 900, 1200, 1500]`
with median index `5 // 2 = 2` and median `900`, and the average retained to
one fractional digit is `731.0`; moreover the median of any non-empty duration
list is an element of the list (an attained value, never an averaged
midpoint). -/
theorem median_upper_convention :
    sortDescBy (fun n => n) [5, 1500, 50, 1200, 900] = [1500, 1200, 900, 50, 5] ∧
    [1500, 1200, 900, 50, 5].map classify = ["SLOW", "SLOW", "MODERATE", "OK", "OK"] ∧
    sortAsc [5, 1500, 50, 1200, 900] = [5, 50, 900, 1200, 1500] ∧
    ([5, 1500, 50, 1200, 900] : List Nat).length / 2 = 2 ∧
    median [5, 1500, 50, 1200, 900] = 900 ∧
    avg1 [5, 1500, 50, 1200, 900] = 731 ∧
    (∀ d : List Nat, d ≠ [] → median d ∈ d) := by
  refine ⟨by decide, by decide, by decide, by decide, by decide, ?_, ?_⟩
  · rw [avg1]
    norm_num [roundHalfEven]
  · intro d hne
    have hn : 1 ≤ d.length := List.length_pos.mpr hne
    have hlen : (sortAsc d).length = d.length := (sortAsc_perm d).length_eq
    have hidx : d.length / 2 < (sortAsc d).length := by omega
    exact (sortAsc_perm d).subset (getD_mem _ _ hidx)

/-- Witness for `median_upper_convention`: its final clause evaluated at a
concrete even-length list (upper median `3` is an element, not a midpoint). -/
theorem median_upper_convention_witness : median [1, 3] ∈ [1, 3] :=
  median_upper_convention.2.2.2.2.2.2 [1, 3] (by decide)

/-- The fixed bucket table (source lines 321-325); the unbounded last bucket
(`float('inf')` upper bound) is modelled by `none`. -/
def buckets : List (String × Nat × Option Nat) :=
  [("0-2 ms", 0, some 2), ("3-5 ms", 3, some 5), ("6-10 ms", 6, some 10),
   ("11-50 ms", 11, some 50), ("51-100 ms", 51, some 100),
   ("101-500 ms", 101, some 500), ("501-1000 ms", 501, some 1000),
   ("1001-5000 ms", 1001, some 5000), ("5000+ ms", 5001, none)]

/-- Bucket membership `lo <= d <= hi` (inclusive-inclusive; `none` means no
upper bound, matching `d <= float('inf')`). -/
def inBucket (lo : Nat) (hi : Option Nat) (d : Nat) : Bool :=
  decide (lo ≤ d) && (match hi with | some h => decide (d ≤ h) | none => true)

/-- `all_dur = [e["duration_ms"] for e in entries]` (source line 326). -/
def all_dur (entries : List Entry) : List Nat :=
  entries.map (fun e => e.duration_ms)

/-- `bc = [(lbl, sum(1 for d in all_dur if lo <= d <= hi)) for lbl, lo, hi in buckets]`
(source line 337). -/
def bc (dur : List Nat) : List (String × Nat) :=
  buckets.map (fun b => (b.1, dur.countP (inBucket b.2.1 b.2.2)))

/-- `mx = max(c for _, c in bc) if bc else 1` (source line 338): the `1`
default applies only when the bucket-count list itself is empty. -/
def mx (l : List (String × Nat)) : Nat :=
  if l.isEmpty then 1 else pyMax (l.map (fun p => p.2))

/-- The bar length `int(count / mx * 30)` of a histogram row (source
line 348) under exact arithmetic; `none` models the `ZeroDivisionError`
raised when `mx = 0`. -/
def visualLen (count m : Nat) : Option Nat :=
  if m = 0 then none else some (count * 30 / m)

/-- The visual-weight formula as the spec words it —
`round(count / maxBucketCount * 30)` with Python (banker's) rounding, under
exact arithmetic. This follows the spec's sentence, for comparison with the
source's `visualLen`. -/
def specVisualRound (count m : Nat) : ℤ :=
  roundHalfEven ((count : ℚ) / (m : ℚ) * 30)

theorem inBucket_some_eq (lo h d : Nat) :
    (inBucket lo (some h) d = true) = (lo ≤ d ∧ d ≤ h) := by
  simp [inBucket]

theorem inBucket_none_eq (lo d : Nat) :
    (inBucket lo none d = true) = (lo ≤ d) := by
  simp [inBucket]

set_option maxHeartbeats 1000000 in
theorem buckets_cover (d : Nat) :
    buckets.countP (fun b => inBucket b.2.1 b.2.2 d) = 1 := by
  rw [buckets]
  rw [List.countP_cons, List.countP_cons, List.countP_cons, List.countP_cons,
      List.countP_cons, List.countP_cons, List.countP_cons, List.countP_cons,
      List.countP_cons, List.countP_nil]
  simp only [inBucket_some_eq, inBucket_none_eq]
  split_ifs <;> omega

theorem bucket_counts_cons (bl : List (String × Nat × Option Nat)) (d : Nat)
    (ds : List Nat) :
    (bl.map (fun b => ((d :: ds).countP (inBucket b.2.1 b.2.2)))).sum =
      (bl.map (fun b => (ds.countP (inBucket b.2.1 b.2.2)))).sum +
        bl.countP (fun b => inBucket b.2.1 b.2.2 d) := by
  induction bl with
  | nil => rfl
  | cons b bs ih =>
    rw [List.map_cons, List.map_cons, List.sum_cons, List.sum_cons,
        List.countP_cons, ih, List.countP_cons]
    by_cases h : inBucket b.2.1 b.2.2 d = true
    · rw [if_pos h]
      omega
    · rw [if_neg h]
      omega

theorem bc_counts (ds : List Nat) :
    (bc ds).map (fun p => p.2) =
      buckets.map (fun b => ds.countP (inBucket b.2.1 b.2.2)) := by
  simp [bc, List.map_map, Function.comp]

theorem bc_counts_total (ds : List Nat) :
    ((bc ds).map (fun p => p.2)).sum = ds.length := by
  rw [bc_counts]
  induction ds with
  | nil => decide
  | cons d ds ih =>
    rw [bucket_counts_cons, ih, buckets_cover, List.length_cons]

/-- C8: the nine fixed buckets are mutually exclusive and jointly cover every
natural duration (each duration lies in exactly one bucket), the bucket counts
over a run's durations sum to the number of parsed entries, and the output
rows keep the fixed bucket definition order (same labels, same order, never
re-sorted). -/
theorem bucket_partition_spec (entries : List Entry) :
    (∀ d : Nat, buckets.countP (fun b => inBucket b.2.1 b.2.2 d) = 1) ∧
    ((bc (all_dur entries)).map (fun p => p.2)).sum = entries.length ∧
    (bc (all_dur entries)).map (fun p => p.1) = buckets.map (fun b => b.1) := by
  refine ⟨buckets_cover, ?_, ?_⟩
  · rw [bc_counts_total, all_dur, List.length_map]
  · simp [bc, List.map_map, Function.comp]

/-- C1 (code bug): with zero parsed entries every bucket count is zero, yet
the bucket-count list `bc` always has nine rows, so the `if bc else 1`
default never applies: `mx` evaluates to `0`, not to the spec's required
default `1`, and the visual-weight computation `int(count / mx * 30)`
divides by zero (`visualLen … = none` models the raised `ZeroDivisionError`)
instead of completing with every bucket's visual weight equal to `0`. -/
theorem bucket_mx_zero_division_bug :
    (bc []).map (fun p => p.2) = [0, 0, 0, 0, 0, 0, 0, 0, 0] ∧
    (bc []).isEmpty = false ∧
    mx (bc []) = 0 ∧
    visualLen 0 (mx (bc [])) = none := by decide

/-- C4 counterexample: for the concrete run with durations `[0, 3, 3, 3, 3]`
the largest bucket count is `4` and the `0-2 ms` bucket has count `1`; the
code's bar length is `int(1 / 4 * 30) = 7` (truncation), while the claimed
formula `round(1 / 4 * 30)` gives `8`: the visual weight is not the
nearest-integer rounding. -/
theorem visual_weight_not_round :
    mx (bc [0, 3, 3, 3, 3]) = 4 ∧
    (bc [0, 3, 3, 3, 3]).map (fun p => p.2) = [1, 4, 0, 0, 0, 0, 0, 0, 0] ∧
    visualLen 1 (mx (bc [0, 3, 3, 3, 3])) = some 7 ∧
    specVisualRound 1 (mx (bc [0, 3, 3, 3, 3])) = 8 ∧
    (7 : Nat) ≠ 8 := by
  refine ⟨by decide, by decide, by decide, ?_, by decide⟩
  have h4 : mx (bc [0, 3, 3, 3, 3]) = 4 := by decide
  rw [h4, specVisualRound]
  norm_num [roundHalfEven]

theorem bc_not_empty (ds : List Nat) : (bc ds).isEmpty = false := by
  simp [bc, buckets]

/-- C4 amended: for every run with at least one parsed entry the largest
bucket count `mx` is positive and each bucket row's bar length is
`int(count / mx * 30)` — the floor (truncation) of the scaled proportion, not
its nearest-integer rounding — and never exceeds the display width `30`. -/
theorem visual_weight_truncates (entries : List Entry) (hne : entries ≠ []) :
    0 < mx (bc (all_dur entries)) ∧
    ∀ p ∈ bc (all_dur entries),
      visualLen p.2 (mx (bc (all_dur entries))) =
        some (p.2 * 30 / mx (bc (all_dur entries))) ∧
      p.2 * 30 / mx (bc (all_dur entries)) ≤ 30 := by
  have hmx : mx (bc (all_dur entries)) =
      pyMax ((bc (all_dur entries)).map (fun p => p.2)) := by
    rw [mx, bc_not_empty]
    rfl
  have hpos : 0 < mx (bc (all_dur entries)) := by
    by_contra hz
    have h0 : mx (bc (all_dur entries)) = 0 := by omega
    rw [hmx] at h0
    have hall : ∀ c ∈ (bc (all_dur entries)).map (fun p => p.2), c = 0 := by
      intro c hc
      have := mem_le_pyMax _ c hc
      omega
    have hsum : ((bc (all_dur entries)).map (fun p => p.2)).sum = 0 := by
      apply List.sum_eq_zero
      exact hall
    rw [bc_counts_total, all_dur, List.length_map] at hsum
    exact hne (List.length_eq_zero.mp hsum)
  refine ⟨hpos, ?_⟩
  intro p hp
  have hmem : p.2 ∈ (bc (all_dur entries)).map (fun q => q.2) :=
    List.mem_map_of_mem _ hp
  have hle : p.2 ≤ mx (bc (all_dur entries)) := by
    rw [hmx]
    exact mem_le_pyMax _ _ hmem
  constructor
  · rw [visualLen, if_neg (Nat.pos_iff_ne_zero.mp hpos)]
  · calc p.2 * 30 / mx (bc (all_dur entries))
        ≤ 30 * mx (bc (all_dur entries)) / mx (bc (all_dur entries)) :=
          Nat.div_le_div_right (by omega)
      _ = 30 := Nat.mul_div_cancel 30 hpos

/-- Witness for `visual_weight_truncates`: on the single-entry run with
duration `0` the largest bucket count is positive and the `0-2 ms` row's bar
length is `int(1 / 1 * 30) = 30`. -/
theorem visual_weight_truncates_witness :
    0 < mx (bc (all_dur [sampleEntry "a" 0 0])) ∧
    visualLen 1 (mx (bc (all_dur [sampleEntry "a" 0 0]))) = some 30 := by
  refine ⟨(visual_weight_truncates [sampleEntry "a" 0 0] (by decide)).1, ?_⟩
  have h := (visual_weight_truncates [sampleEntry "a" 0 0] (by decide)).2
    ("0-2 ms", 1) (by decide)
  rw [h.1]
  decide

/-- Per-partition accumulator: the `{"durations": [], "offsets": []}` value of
the `defaultdict` (source line 175). -/
structure PartStat where
  durations : List Nat
  offsets : List Nat
deriving Repr, DecidableEq

/-- One step of the grouping scan (source lines 176-178): append the entry's
duration and offset to its partition's group, creating the group at the end
on first encounter (Python dicts preserve insertion order). -/
def addEntry (acc : List (String × PartStat)) (e : Entry) :
    List (String × PartStat) :=
  if acc.any (fun g => g.1 == e.partition) then
    acc.map (fun g =>
      if g.1 == e.partition then
        (g.1, PartStat.mk (g.2.durations ++ [e.duration_ms])
          (g.2.offsets ++ [e.offset]))
      else g)
  else acc ++ [(e.partition, PartStat.mk [e.duration_ms] [e.offset])]

/-- `part_stats` (source lines 175-178): the groups, in the order their keys
were first encountered while scanning the entries in parse order. -/
def part_stats (entries : List Entry) : List (String × PartStat) :=
  entries.foldl addEntry []

/-- `sorted_parts = sorted(part_stats.items(), key=lambda x: max(x[1]["durations"]), reverse=True)`
(source line 193). -/
def sorted_parts (entries : List Entry) : List (String × PartStat) :=
  sortDescBy (fun g => pyMax g.2.durations) (part_stats entries)

/-- First-encounter deduplication step for partition keys. -/
def addKey (acc : List String) (k : String) : List String :=
  if acc.any (fun x => x == k) then acc else acc ++ [k]

/-- The partition keys in the order they are first encountered while scanning
the entries in parse order. -/
def firstKeys (entries : List Entry) : List String :=
  entries.foldl (fun acc e => addKey acc e.partition) []

theorem addEntry_keys (acc : List (String × PartStat)) (e : Entry) :
    (addEntry acc e).map Prod.fst = addKey (acc.map Prod.fst) e.partition := by
  rw [addEntry, addKey]
  have hany : ∀ l : List (String × PartStat),
      (l.map Prod.fst).any (fun x => x == e.partition) =
        l.any (fun g => g.1 == e.partition) := by
    intro l
    induction l with
    | nil => rfl
    | cons g gs ih =>
      rw [List.map_cons, List.any_cons, List.any_cons, ih]
  rw [hany acc]
  by_cases h : acc.any (fun g => g.1 == e.partition) = true
  · rw [if_pos h, if_pos h, List.map_map]
    apply List.map_congr_left
    intro g _
    by_cases hg : g.1 = e.partition
    · simp [hg]
    · simp [hg]
  · rw [if_neg h, if_neg h, List.map_append]
    rfl

theorem part_stats_keys_aux (es : List Entry) :
    ∀ acc : List (String × PartStat),
      (es.foldl addEntry acc).map Prod.fst =
        es.foldl (fun a e => addKey a e.partition) (acc.map Prod.fst) := by
  induction es with
  | nil => intro acc; rfl
  | cons e es ih =>
    intro acc
    rw [List.foldl_cons, List.foldl_cons, ih, addEntry_keys]

theorem part_stats_keys (entries : List Entry) :
    (part_stats entries).map Prod.fst = firstKeys entries :=
  part_stats_keys_aux entries []

theorem addKey_nodup (acc : List String) (k : String) (h : acc.Nodup) :
    (addKey acc k).Nodup := by
  rw [addKey]
  by_cases hc : acc.any (fun x => x == k) = true
  · rw [if_pos hc]
    exact h
  · rw [if_neg hc]
    refine List.Nodup.append h (List.nodup_singleton k) ?_
    intro a ha hb
    rcases List.mem_singleton.mp hb with rfl
    apply hc
    rw [List.any_eq_true]
    exact ⟨a, ha, by simp⟩

theorem addEntry_nodup (acc : List (String × PartStat)) (e : Entry)
    (hnd : (acc.map Prod.fst).Nodup) : ((addEntry acc e).map Prod.fst).Nodup := by
  rw [addEntry_keys]
  exact addKey_nodup _ _ hnd

theorem sum_durations_update (acc : List (String × PartStat)) (e : Entry) :
    ((acc.map (fun g =>
        if g.1 == e.partition then
          (g.1, PartStat.mk (g.2.durations ++ [e.duration_ms])
            (g.2.offsets ++ [e.offset]))
        else g)).map (fun g => g.2.durations.length)).sum =
      (acc.map (fun g => g.2.durations.length)).sum +
        acc.countP (fun g => g.1 == e.partition) := by
  induction acc with
  | nil => rfl
  | cons g gs ih =>
    rw [List.map_cons, List.map_cons, List.map_cons, List.sum_cons,
        List.sum_cons, List.countP_cons, ih]
    by_cases h : (g.1 == e.partition) = true
    · rw [if_pos h, if_pos h]
      simp only [List.length_append, List.length_singleton]
      omega
    · rw [if_neg h, if_neg h]
      omega

theorem countP_key_eq_one (acc : List (String × PartStat)) (k : String)
    (hnd : (acc.map Prod.fst).Nodup)
    (hany : acc.any (fun g => g.1 == k) = true) :
    acc.countP (fun g => g.1 == k) = 1 := by
  induction acc with
  | nil => cases hany
  | cons g gs ih =>
    rw [List.countP_cons]
    by_cases h : (g.1 == k) = true
    · rw [if_pos h]
      have hk : g.1 = k := eq_of_beq h
      have hnotin : g.1 ∉ gs.map Prod.fst :=
        (List.nodup_cons.mp (by simpa using hnd)).1
      have hcount : gs.countP (fun g' => g'.1 == k) = 0 := by
        rw [List.countP_eq_zero]
        intro g' hg' hbeq
        apply hnotin
        rw [hk, ← eq_of_beq hbeq]
        exact List.mem_map_of_mem Prod.fst hg'
      omega
    · rw [if_neg h]
      have hfalse : (g.1 == k) = false := by
        cases hgk : (g.1 == k)
        · rfl
        · exact absurd hgk h
      have hany' : gs.any (fun g' => g'.1 == k) = true := by
        simp only [List.any_cons] at hany
        rw [hfalse] at hany
        simpa using hany
      have := ih (List.nodup_cons.mp (by simpa using hnd)).2 hany'
      omega

theorem addEntry_sum (acc : List (String × PartStat)) (e : Entry)
    (hnd : (acc.map Prod.fst).Nodup) :
    ((addEntry acc e).map (fun g => g.2.durations.length)).sum =
      (acc.map (fun g => g.2.durations.length)).sum + 1 := by
  rw [addEntry]
  by_cases h : acc.any (fun g => g.1 == e.partition) = true
  · rw [if_pos h, sum_durations_update, countP_key_eq_one acc e.partition hnd h]
  · rw [if_neg h, List.map_append, List.sum_append]
    simp

theorem part_stats_sum_aux (es : List Entry) :
    ∀ acc : List (String × PartStat), (acc.map Prod.fst).Nodup →
      ((es.foldl addEntry acc).map (fun g => g.2.durations.length)).sum =
        (acc.map (fun g => g.2.durations.length)).sum + es.length := by
  induction es with
  | nil =>
    intro acc _
    simp
  | cons e es ih =>
    intro acc hnd
    rw [List.foldl_cons, ih _ (addEntry_nodup acc e hnd), addEntry_sum acc e hnd,
        List.length_cons]
    omega

theorem part_stats_sum (entries : List Entry) :
    ((part_stats entries).map (fun g => g.2.durations.length)).sum =
      entries.length := by
  have h := part_stats_sum_aux entries [] (by simp)
  simpa using h

/-- C6: the group ranking `sorted_parts` is sorted non-increasing by each
group's maximum duration; equal-max groups keep the `part_stats` order
(stability, stated as filter invariance for every maximum value); the
`part_stats` order lists the group keys exactly in first-encounter scan
order; and the per-group entry counts sum to the number of parsed entries. -/
theorem group_ranking_spec (entries : List Entry) :
    (sorted_parts entries).Pairwise
      (fun a b => pyMax b.2.durations ≤ pyMax a.2.durations) ∧
    (∀ v : Nat,
      (sorted_parts entries).filter (fun g => pyMax g.2.durations == v) =
        (part_stats entries).filter (fun g => pyMax g.2.durations == v)) ∧
    (part_stats entries).map Prod.fst = firstKeys entries ∧
    ((sorted_parts entries).map (fun g => g.2.durations.length)).sum =
      entries.length := by
  refine ⟨sortDescBy_pairwise _ _, fun v => sortDescBy_filter_key _ _ v,
    part_stats_keys entries, ?_⟩
  have hperm : List.Perm (sorted_parts entries) (part_stats entries) :=
    sortDescBy_perm _ _
  rw [(hperm.map (fun g => g.2.durations.length)).sum_eq, part_stats_sum]

/-!
### Line parser (`LINE_PATTERN`, source lines 17-24, and `parse_log`, 47-66)

`LINE_PATTERN` is a concatenation of literals and character-class repeats in
which every quantified class is disjoint from the character that follows it
(digits before `]`/`:`/`,`/whitespace, whitespace before letters, the
partition class excludes `,`, the directory class excludes `]`), so the
pattern is deterministic at each starting position: every `+` run can be
taken greedily with no backtracking, and the lazy `[\w\.\-]+?` group equals
the greedy run. `re.search` is modelled by trying the anchored match at each
suffix, leftmost first. Character classes are modelled at ASCII width, which
covers the log grammar.
-/

/-- Regex `\d` (ASCII). -/
def isDigitC (c : Char) : Bool := decide ('0' ≤ c) && decide (c ≤ '9')

/-- Regex `\s` (ASCII). -/
def isSpaceC (c : Char) : Bool :=
  c == ' ' || c == '\t' || c == '\n' || c == '\r' || c == '\x0b' || c == '\x0c'

/-- Regex `\w` (ASCII). -/
def isWordC (c : Char) : Bool :=
  (decide ('a' ≤ c) && decide (c ≤ 'z')) ||
    (decide ('A' ≤ c) && decide (c ≤ 'Z')) || isDigitC c || c == '_'

/-- The class `[\w\.\-]` of the partition group. -/
def isPartC (c : Char) : Bool := isWordC c || c == '.' || c == '-'

/-- The class `[^\]]` of the directory group. -/
def isDirC (c : Char) : Bool := !(c == ']')

/-- Match a literal token, returning the remaining input. -/
def expectLit : List Char → List Char → Option (List Char)
  | [], rest => some rest
  | _ :: _, [] => none
  | p :: ps, c :: cs => if p = c then expectLit ps cs else none

/-- `\s+` keeping the matched run (the timestamp group captures its inner
whitespace). -/
def ws1Run (cs : List Char) : Option (List Char × List Char) :=
  let t := cs.takeWhile isSpaceC
  if t.isEmpty then none else some (t, cs.dropWhile isSpaceC)

/-- Exactly `n` digits (`\d{n}`). -/
def digitsN : Nat → List Char → Option (List Char × List Char)
  | 0, cs => some ([], cs)
  | _ + 1, [] => none
  | n + 1, c :: cs =>
    if isDigitC c then (digitsN n cs).map (fun r => (c :: r.1, r.2)) else none

/-- A nonempty greedy run of characters of class `p` (`X+` with a follower
disjoint from `X`). -/
def takeRun1 (p : Char → Bool) (cs : List Char) : Option (List Char × List Char) :=
  let t := cs.takeWhile p
  if t.isEmpty then none else some (t, cs.dropWhile p)

/-- The five captured groups of `LINE_PATTERN`, as character lists. -/
structure RawMatch where
  ts : List Char
  part : List Char
  dir : List Char
  off : List Char
  dur : List Char
deriving Repr, DecidableEq

def litINFO : List Char := "INFO".toList

def litMergedLog : List Char := "[MergedLog".toList

def litPartitionEq : List Char := "partition=".toList

def litDirEq : List Char := "dir=".toList

def litRolledOffset : List Char := "Rolled new log segment at offset".toList

def litIn : List Char := "in".toList

def litMsDot : List Char := "ms.".toList

/-- The bracketed timestamp group
`(\d{4}-\d{2}-\d{2}\s+\d{2}:\d{2}:\d{2},\d+)\]`: returns the captured text
and the input remaining after the closing `]`. -/
def matchTsGroup (cs : List Char) : Option (List Char × List Char) :=
  (digitsN 4 cs).bind fun y4 =>
  (expectLit ['-'] y4.2).bind fun r1 =>
  (digitsN 2 r1).bind fun mo2 =>
  (expectLit ['-'] mo2.2).bind fun r2 =>
  (digitsN 2 r2).bind fun d2 =>
  (ws1Run d2.2).bind fun wsr =>
  (digitsN 2 wsr.2).bind fun h2 =>
  (expectLit [':'] h2.2).bind fun r3 =>
  (digitsN 2 r3).bind fun mi2 =>
  (expectLit [':'] mi2.2).bind fun r4 =>
  (digitsN 2 r4).bind fun s2 =>
  (expectLit [','] s2.2).bind fun r5 =>
  (takeRun1 isDigitC r5).bind fun frac =>
  (expectLit [']'] frac.2).map fun r6 =>
  (y4.1 ++ ['-'] ++ mo2.1 ++ ['-'] ++ d2.1 ++ wsr.1 ++ h2.1 ++ [':'] ++ mi2.1
    ++ [':'] ++ s2.1 ++ [','] ++ frac.1, r6)

/-- `\s+INFO\s+\[MergedLog\s+partition=`. -/
def matchMiddle (cs : List Char) : Option (List Char) :=
  (ws1Run cs).bind fun w1 =>
  (expectLit litINFO w1.2).bind fun r1 =>
  (ws1Run r1).bind fun w2 =>
  (expectLit litMergedLog w2.2).bind fun r2 =>
  (ws1Run r2).bind fun w3 =>
  expectLit litPartitionEq w3.2

/-- `([\w\.\-]+?),\s*dir=([^\]]+)\]`: the partition and directory groups. -/
def matchPartDir (cs : List Char) : Option (List Char × List Char × List Char) :=
  (takeRun1 isPartC cs).bind fun part =>
  (expectLit [','] part.2).bind fun r1 =>
  (expectLit litDirEq (r1.dropWhile isSpaceC)).bind fun r2 =>
  (takeRun1 isDirC r2).bind fun dir =>
  (expectLit [']'] dir.2).map fun r3 => (part.1, dir.1, r3)

/-- `\s+Rolled new log segment at offset\s+(\d+)\s+in\s+(\d+)\s+ms\.`. -/
def matchOffDur (cs : List Char) : Option (List Char × List Char) :=
  (ws1Run cs).bind fun w1 =>
  (expectLit litRolledOffset w1.2).bind fun r1 =>
  (ws1Run r1).bind fun w2 =>
  (takeRun1 isDigitC w2.2).bind fun off =>
  (ws1Run off.2).bind fun w3 =>
  (expectLit litIn w3.2).bind fun r2 =>
  (ws1Run r2).bind fun w4 =>
  (takeRun1 isDigitC w4.2).bind fun dur =>
  (ws1Run dur.2).bind fun w5 =>
  (expectLit litMsDot w5.2).map fun _ => (off.1, dur.1)

/-- One anchored attempt of `LINE_PATTERN` at the start of `cs`. -/
def matchAt (cs : List Char) : Option RawMatch :=
  (expectLit ['['] cs).bind fun r1 =>
  (matchTsGroup r1).bind fun tsr =>
  (matchMiddle tsr.2).bind fun r2 =>
  (matchPartDir r2).bind fun pdr =>
  (matchOffDur pdr.2.2).map fun od =>
  RawMatch.mk tsr.1 pdr.1 pdr.2.1 od.1 od.2

/-- `LINE_PATTERN.search`: the anchored attempt at every suffix, leftmost
first. -/
def lineSearch : List Char → Option RawMatch
  | [] => matchAt []
  | c :: cs =>
    match matchAt (c :: cs) with
    | some m => some m
    | none => lineSearch cs

/-- Is `pat` a prefix of the text? -/
def hasPrefixC : List Char → List Char → Bool
  | [], _ => true
  | _ :: _, [] => false
  | p :: ps, c :: cs => p == c && hasPrefixC ps cs

/-- Substring test, Python `"…" in line`. -/
def containsSub (pat : List Char) : List Char → Bool
  | [] => pat.isEmpty
  | c :: cs => hasPrefixC pat (c :: cs) || containsSub pat cs

/-- The marker of the cheap substring pre-check (source line 51). -/
def markerChars : List Char := "Rolled new log segment at".toList

/-- The result of `datetime.strptime(ts_str, "%Y-%m-%d %H:%M:%S,%f")`. -/
structure Ts where
  year : Nat
  month : Nat
  day : Nat
  hour : Nat
  minute : Nat
  second : Nat
  microsecond : Nat
deriving Repr, DecidableEq

/-- Numeric value of one ASCII digit. -/
def digitVal (c : Char) : Nat := c.toNat - '0'.toNat

/-- Python `int(...)` on a digit string. -/
def digitsVal (ds : List Char) : Nat := ds.foldl (fun a c => a * 10 + digitVal c) 0

/-- Gregorian leap-year predicate, as used by the `datetime` constructor. -/
def leapYear (y : Nat) : Bool :=
  y % 4 == 0 && (y % 100 != 0 || y % 400 == 0)

/-- Days in a month, as checked by the `datetime` constructor. -/
def daysInMonth (y mo : Nat) : Nat :=
  if mo = 2 then (if leapYear y then 29 else 28)
  else if mo = 4 ∨ mo = 6 ∨ mo = 9 ∨ mo = 11 then 30
  else 31

/-- The `datetime(...)` constructor's range checks on the values extracted by
the `_strptime` format regex: year 1-9999, day within the month, second at
most 59 (the format regex itself admits the leap seconds 60-61, which the
constructor then rejects). Hours and minutes are already capped by the
format's character classes. -/
def mkValidTs (y mo d h mi s us : Nat) : Option Ts :=
  if 1 ≤ y ∧ y ≤ 9999 ∧ 1 ≤ d ∧ d ≤ daysInMonth y mo ∧ s ≤ 59 then
    some (Ts.mk y mo d h mi s us)
  else none

/-- `%m` as `_strptime` compiles it, `(1[0-2]|0[1-9]|[1-9])`: candidate
(value, rest) pairs in alternation priority order. -/
def monthCands : List Char → List (Nat × List Char)
  | c1 :: c2 :: rest =>
    (if c1 == '1' && decide ('0' ≤ c2) && decide (c2 ≤ '2') then
      [(10 + digitVal c2, rest)] else []) ++
    (if c1 == '0' && decide ('1' ≤ c2) && decide (c2 ≤ '9') then
      [(digitVal c2, rest)] else []) ++
    (if decide ('1' ≤ c1) && decide (c1 ≤ '9') then
      [(digitVal c1, c2 :: rest)] else [])
  | [c1] =>
    if decide ('1' ≤ c1) && decide (c1 ≤ '9') then [(digitVal c1, [])] else []
  | [] => []

/-- `%d`: `(3[01]|[12]\d|0[1-9]|[1-9])`. -/
def dayCands : List Char → List (Nat × List Char)
  | c1 :: c2 :: rest =>
    (if c1 == '3' && decide ('0' ≤ c2) && decide (c2 ≤ '1') then
      [(30 + digitVal c2, rest)] else []) ++
    (if (c1 == '1' || c1 == '2') && isDigitC c2 then
      [(digitVal c1 * 10 + digitVal c2, rest)] else []) ++
    (if c1 == '0' && decide ('1' ≤ c2) && decide (c2 ≤ '9') then
      [(digitVal c2, rest)] else []) ++
    (if decide ('1' ≤ c1) && decide (c1 ≤ '9') then
      [(digitVal c1, c2 :: rest)] else [])
  | [c1] =>
    if decide ('1' ≤ c1) && decide (c1 ≤ '9') then [(digitVal c1, [])] else []
  | [] => []

/-- `%H`: `(2[0-3]|[0-1]\d|\d)`. -/
def hourCands : List Char → List (Nat × List Char)
  | c1 :: c2 :: rest =>
    (if c1 == '2' && decide ('0' ≤ c2) && decide (c2 ≤ '3') then
      [(20 + digitVal c2, rest)] else []) ++
    (if (c1 == '0' || c1 == '1') && isDigitC c2 then
      [(digitVal c1 * 10 + digitVal c2, rest)] else []) ++
    (if isDigitC c1 then [(digitVal c1, c2 :: rest)] else [])
  | [c1] => if isDigitC c1 then [(digitVal c1, [])] else []
  | [] => []

/-- `%M`: `([0-5]\d|\d)`. -/
def minuteCands : List Char → List (Nat × List Char)
  | c1 :: c2 :: rest =>
    (if decide ('0' ≤ c1) && decide (c1 ≤ '5') && isDigitC c2 then
      [(digitVal c1 * 10 + digitVal c2, rest)] else []) ++
    (if isDigitC c1 then [(digitVal c1, c2 :: rest)] else [])
  | [c1] => if isDigitC c1 then [(digitVal c1, [])] else []
  | [] => []

/-- `%S`: `(6[0-1]|[0-5]\d|\d)`. -/
def secondCands : List Char → List (Nat × List Char)
  | c1 :: c2 :: rest =>
    (if c1 == '6' && decide ('0' ≤ c2) && decide (c2 ≤ '1') then
      [(60 + digitVal c2, rest)] else []) ++
    (if decide ('0' ≤ c1) && decide (c1 ≤ '5') && isDigitC c2 then
      [(digitVal c1 * 10 + digitVal c2, rest)] else []) ++
    (if isDigitC c1 then [(digitVal c1, c2 :: rest)] else [])
  | [c1] => if isDigitC c1 then [(digitVal c1, [])] else []
  | [] => []

/-- Try the continuation on each field candidate in order (the regex engine's
backtracking across a field's alternation). -/
def firstSome (k : Nat × List Char → Option Ts) : List (Nat × List Char) → Option Ts
  | [] => none
  | c :: cs =>
    match k c with
    | some t => some t
    | none => firstSome k cs

/-- `%f` (`\d{1,6}`) followed by the end of the data: `strptime` requires
the whole string to be consumed, so a seventh fractional digit or any
trailing character is an error ("unconverted data remains"); shorter
fractions are zero-padded to microseconds. -/
def parseFracEnd (cs : List Char) : Option Nat :=
  let t := cs.takeWhile isDigitC
  let r := cs.dropWhile isDigitC
  if t.isEmpty then none
  else if 6 < t.length then none
  else if r.isEmpty then some (digitsVal t * 10 ^ (6 - t.length)) else none

/-- `datetime.strptime(ts_str, "%Y-%m-%d %H:%M:%S,%f")` (source line 56):
`none` models a raised `ValueError`, whether from the `_strptime` format
regex (field classes, literal separators, whitespace in the format matching
`\s+`, full consumption of the input) or from the `datetime` constructor's
range checks (`mkValidTs`). -/
def strptimeTs (cs : List Char) : Option Ts :=
  (digitsN 4 cs).bind fun y4 =>
  (expectLit ['-'] y4.2).bind fun r1 =>
  firstSome (fun mor =>
    (expectLit ['-'] mor.2).bind fun r2 =>
    firstSome (fun dr =>
      (ws1Run dr.2).bind fun wsr =>
      firstSome (fun hr =>
        (expectLit [':'] hr.2).bind fun r3 =>
        firstSome (fun mir =>
          (expectLit [':'] mir.2).bind fun r4 =>
          firstSome (fun sr =>
            (expectLit [','] sr.2).bind fun r5 =>
            (parseFracEnd r5).bind fun us =>
            mkValidTs (digitsVal y4.1) mor.1 dr.1 hr.1 mir.1 sr.1 us)
            (secondCands r4))
          (minuteCands r3))
        (hourCands wsr.2))
      (dayCands r2))
    (monthCands r1)

/-- Python `str.strip()` (ASCII whitespace model), applied to the directory
group (source line 62). -/
def stripC (cs : List Char) : List Char :=
  ((cs.dropWhile isSpaceC).reverse.dropWhile isSpaceC).reverse

/-- The entry dict appended by `parse_log` (source lines 57-65). -/
def mkEntry (ts : Ts) (m : RawMatch) : Entry :=
  { year := ts.year, month := ts.month, day := ts.day, hour := ts.hour,
    minute := ts.minute, second := ts.second, microsecond := ts.microsecond,
    partition := String.mk m.part, directory := String.mk (stripC m.dir),
    offset := digitsVal m.off, duration_ms := digitsVal m.dur }

/-- One line of the loop of `parse_log` (source lines 50-65): `none` models a
`ValueError` raised out of `strptime`; `some none` is a skipped line;
`some (some e)` is a parsed entry. -/
def parseLine (line : String) : Option (Option Entry) :=
  if containsSub markerChars line.toList = false then some none
  else
    match lineSearch line.toList with
    | none => some none
    | some m =>
      match strptimeTs m.ts with
      | none => none
      | some ts => some (some (mkEntry ts m))

/-- One `foldlM` step of `parse_log`: a raised `ValueError` aborts the fold. -/
def parseStep (acc : List Entry) (line : String) : Except Unit (List Entry) :=
  match parseLine line with
  | none => Except.error ()
  | some none => Except.ok acc
  | some (some e) => Except.ok (acc ++ [e])

/-- `parse_log` (source lines 47-66) over the decoded lines of an opened
file. The `errors="ignore"` decoding step is upstream of this model: its
effect is that every line is an arbitrary (already decoded) string, which
this function accepts in total. `Except.error ()` models an exception
escaping `parse_log`. -/
def parse_log (lines : List String) : Except Unit (List Entry) :=
  lines.foldlM parseStep []

/-- A readable one-line file whose line contains the marker and matches the
full structural pattern, but whose timestamp carries the invalid calendar
month `13`. -/
def badLine : String :=
  "[2024-13-01 12:00:00,123] INFO [MergedLog partition=p-0, dir=/d] Rolled new log segment at offset 5 in 7 ms."

/-- C2 counterexample: on a file that can be opened whose single line matches
`LINE_PATTERN` structurally but has month `13`, `strptime` raises
`ValueError` (nothing catches it), so `parse_log` does not return an entry
list: content alone can make parsing fail even though the file is
readable. -/
theorem parse_log_raises_on_invalid_month :
    parse_log [badLine] = Except.error () := by rfl

theorem parse_log_aux (lines : List String)
    (h : ∀ line ∈ lines, ((lineSearch line.toList).map
      (fun m => (strptimeTs m.ts).isSome)).getD true = true) :
    ∀ acc : List Entry, ∃ es, lines.foldlM parseStep acc = Except.ok es := by
  induction lines with
  | nil =>
    intro acc
    exact ⟨acc, rfl⟩
  | cons line rest ih =>
    intro acc
    have hline := h line (List.mem_cons_self _ _)
    have hrest : ∀ l ∈ rest, ((lineSearch l.toList).map
        (fun m => (strptimeTs m.ts).isSome)).getD true = true :=
      fun l hl => h l (List.mem_cons_of_mem _ hl)
    have hok : ∃ acc', parseStep acc line = Except.ok acc' := by
      by_cases hm : containsSub markerChars line.toList = false
      · have hpl : parseLine line = some none := by rw [parseLine, if_pos hm]
        exact ⟨acc, by rw [parseStep, hpl]⟩
      · cases hs : lineSearch line.toList with
        | none =>
          have hpl : parseLine line = some none := by
            rw [parseLine, if_neg hm, hs]
          exact ⟨acc, by rw [parseStep, hpl]⟩
        | some m =>
          rw [hs] at hline
          simp only [Option.map_some', Option.getD_some] at hline
          cases hts : strptimeTs m.ts with
          | none =>
            rw [hts] at hline
            simp at hline
          | some ts =>
            have hpl : parseLine line = some (some (mkEntry ts m)) := by
              rw [parseLine, if_neg hm, hs]
              simp only [hts]
            exact ⟨acc ++ [mkEntry ts m], by rw [parseStep, hpl]⟩
    rcases hok with ⟨acc', hstep⟩
    rw [List.foldlM_cons, hstep]
    exact ih hrest acc'

/-- C2 amended: for every opened file, `parse_log` returns an entry list
without raising provided no line both matches the full structural pattern
and carries a timestamp that `strptime` rejects; lines without the marker,
and lines that contain the marker but fail the structural pattern, are
silently skipped and never raise (undecodable bytes are already dropped by
the `errors="ignore"` decoding before this function). The only other fatal
failure modes are the file being unreadable and a structurally matching line
whose timestamp is an invalid date, which raises `ValueError`. -/
theorem parse_log_ok_of_valid_timestamps (lines : List String)
    (h : ∀ line ∈ lines, ((lineSearch line.toList).map
      (fun m => (strptimeTs m.ts).isSome)).getD true = true) :
    ∃ es, parse_log lines = Except.ok es :=
  parse_log_aux lines h []

/-- A well-formed log line. -/
def goodLine : String :=
  "[2024-03-01 12:00:00,123] INFO [MergedLog partition=p-0, dir=/d] Rolled new log segment at offset 5 in 7 ms."

/-- Witness for `parse_log_ok_of_valid_timestamps` on a concrete two-line
file: one well-formed line and one junk line; parsing succeeds. -/
theorem parse_log_ok_witness :
    ∃ es, parse_log [goodLine, "no marker here"] = Except.ok es :=
  parse_log_ok_of_valid_timestamps [goodLine, "no marker here"] (by decide)

end KafkaRoll
